import Mathlib

/-!
Verification of the mark-compact garbage collector simulator.

The definitions below are a shallow embedding of the simulator core:
the heap object model, depth-first reachability marking, compaction
planning (new-address assignment plus pointer retargeting), the crunch
step that relocates survivors and drops garbage, and the phase/history
controller with its snapshot-based undo.  JavaScript Map values are
embedded as insertion-ordered association lists, JavaScript Set values
as finite sets of addresses.
-/

namespace GCV

/-- A heap object: identifier, start address, total size in cells
(header included), pointer fields (length size - 1 in well-formed
heaps), the mark bit and the planned new address. -/
structure Obj where
  id : String
  addr : Nat
  size : Nat
  fields : List (Option Nat)
  marked : Bool := false
  newAddr : Option Nat := none
deriving DecidableEq, Repr

/-- Stable sort by ascending address: Array.prototype.sort with the
comparator on addr is a stable comparison sort, embedded here as the
stable insertion sort. -/
def sortByAddr (arr : List Obj) : List Obj :=
  arr.insertionSort (fun a b => a.addr ≤ b.addr)

/-- Lookup in an insertion-ordered association list, embedding
Map.prototype.get (absent key gives none). -/
def mapGet (m : List (Nat × Nat)) (k : Nat) : Option Nat :=
  (m.find? (fun e => e.1 == k)).map (fun e => e.2)

/-- Key-presence test, embedding Map.prototype.has. -/
def mapHas (m : List (Nat × Nat)) (k : Nat) : Bool :=
  m.any (fun e => e.1 == k)

/-- Insertion, embedding Map.prototype.set: an existing key keeps its
position and gets the new value, a fresh key is appended. -/
def mapSet (m : List (Nat × Nat)) (k v : Nat) : List (Nat × Nat) :=
  if mapHas m k then m.map (fun e => if e.1 == k then (k, v) else e)
  else m ++ [(k, v)]

/-- The address-keyed object map built by markReachable: a Map
constructed from the object list lets later entries overwrite earlier
ones, so lookup scans the reversed list. -/
def lookupAddr (objs : List Obj) (a : Nat) : Option Obj :=
  objs.reverse.find? (fun o => o.addr == a)

/-- The recursive dfs of markReachable, made total by a fuel argument:
a null or unresolvable or already-visited address is a leaf, otherwise
the address is added to the visited set and the fields are explored in
array order by the fold, threading the visited set.  Fuel
objs.length + 1 is always sufficient, since each level of recursion has
inserted one more resolvable address into the visited set. -/
def dfsVisit (L : Nat → Option Obj) : Nat → Option Nat → Finset Nat → Finset Nat
  | 0, _, v => v
  | _ + 1, none, v => v
  | fuel + 1, some a, v =>
    match L a with
    | none => v
    | some o =>
      if a ∈ v then v
      else o.fields.foldl (fun v2 p => dfsVisit L fuel p v2) (insert a v)

/-- DFS mark of the objects reachable from the root: the visited
address set is computed first, then every object that the address map
resolves to a visited address gets its mark bit set (the source
mutates exactly the map-resident objects during the traversal; the
traversal itself reads only the visited set, never the mark bits). -/
def markReachable (objs : List Obj) (rootAddr : Option Nat) : List Obj :=
  let visited := dfsVisit (lookupAddr objs) (objs.length + 1) rootAddr ∅
  objs.map (fun o =>
    if o.addr ∈ visited ∧ lookupAddr objs o.addr = some o then
      { o with marked := true }
    else o)

/-- One step of the planning scan: a marked object records its cursor
value in the mapping and advances the cursor by its size; an unmarked
object leaves the accumulator alone. -/
def planStep (acc : Nat × List (Nat × Nat)) (o : Obj) : Nat × List (Nat × Nat) :=
  if o.marked then (acc.1 + o.size, mapSet acc.2 o.addr acc.1) else acc

/-- Pointer retargeting of one field cell: a value present as a key in
the mapping is replaced by its mapped address, anything else is left
unchanged. -/
def retargetCell (m : List (Nat × Nat)) (cell : Option Nat) : Option Nat :=
  match cell with
  | none => none
  | some c =>
    match mapGet m c with
    | some n => some n
    | none => some c

/-- Result record of prepareCompaction. -/
structure PrepResult where
  objects : List Obj
  oldToNew : List (Nat × Nat)
  newRoot : Option Nat
  nextFree : Nat
deriving DecidableEq, Repr

/-- Phase 2: scan the objects in ascending address order assigning new
addresses to the marked ones, then retarget every pointer field through
the resulting mapping and map the root (a root absent from the mapping
becomes none).  The memorySize parameter is accepted but, as in the
source, unused. -/
def prepareCompaction (objects : List Obj) (memorySize : Nat) (rootAddr : Option Nat) :
    PrepResult :=
  let sorted := sortByAddr objects
  let acc := sorted.foldl planStep (0, [])
  let oldToNew := acc.2
  let withPlan := objects.map (fun o =>
    if o.marked then { o with newAddr := mapGet oldToNew o.addr } else o)
  let retargeted := withPlan.map (fun o =>
    { o with fields := o.fields.map (retargetCell oldToNew) })
  let newRoot :=
    match rootAddr with
    | none => none
    | some r => mapGet oldToNew r
  { objects := retargeted, oldToNew := oldToNew, newRoot := newRoot, nextFree := acc.1 }

/-- Phase 3: keep the marked objects in ascending address order,
relabel each to its mapped address, clear the mark bit and the planned
address, drop the unmarked ones.  The source dereferences the mapping
with a non-null assertion; in phase-correct use every marked object has
an entry, so the default value of getD is never observed. -/
def crunch (objects : List Obj) (oldToNew : List (Nat × Nat)) : List Obj :=
  (sortByAddr objects).filterMap (fun o =>
    if o.marked then
      some { o with addr := (mapGet oldToNew o.addr).getD 0, newAddr := none, marked := false }
    else none)

/-- The phase state machine of the controller. -/
inductive Phase where
  | idle
  | mark
  | prepare
  | crunch
deriving DecidableEq, Repr

/-- Snapshot pushed on the history stack before each forward
transition. -/
structure Snap where
  objects : List Obj
  root : Option Nat
  phase : Phase
  mapping : List (Nat × Nat)
  nextFree : Nat
deriving DecidableEq, Repr

/-- The full observable state of the visualizer component: heap
capacity, object set, root, phase, old-to-new mapping, bump pointer and
the undo history. -/
structure VisState where
  memorySize : Nat
  objects : List Obj
  root : Option Nat
  phase : Phase
  mapping : List (Nat × Nat)
  nextFree : Nat
  history : List Snap
deriving DecidableEq, Repr

/-- Snapshot of the current state (deep copies in the source; values
here). -/
def takeSnap (s : VisState) : Snap :=
  { objects := s.objects, root := s.root, phase := s.phase,
    mapping := s.mapping, nextFree := s.nextFree }

/-- Push the current snapshot on the history stack. -/
def pushHistory (s : VisState) : VisState :=
  { s with history := s.history ++ [takeSnap s] }

/-- Forward transition 1: only from idle; snapshots, marks from the
root, enters phase mark. -/
def doMark (s : VisState) : VisState :=
  if s.phase = Phase.idle then
    let s1 := pushHistory s
    { s1 with objects := markReachable s1.objects s1.root, phase := Phase.mark }
  else s

/-- Forward transition 2: only from mark; snapshots, runs
prepareCompaction and installs its objects, mapping, root and nextFree,
enters phase prepare. -/
def doPrepare (s : VisState) : VisState :=
  if s.phase = Phase.mark then
    let s1 := pushHistory s
    let r := prepareCompaction s1.objects s1.memorySize s1.root
    { s1 with objects := r.objects, mapping := r.oldToNew, root := r.newRoot,
              nextFree := r.nextFree, phase := Phase.prepare }
  else s

/-- Forward transition 3: only from prepare; snapshots, crunches the
objects through the stored mapping, enters phase crunch.  Root and
nextFree are untouched. -/
def doCrunch (s : VisState) : VisState :=
  if s.phase = Phase.prepare then
    let s1 := pushHistory s
    { s1 with objects := crunch s1.objects s1.mapping, phase := Phase.crunch }
  else s

/-- Undo: with an empty history the state is returned unchanged,
otherwise the most recent snapshot is restored verbatim and popped. -/
def goPrev (s : VisState) : VisState :=
  match s.history.getLast? with
  | none => s
  | some last =>
    { s with objects := last.objects, root := last.root, phase := last.phase,
             mapping := last.mapping, nextFree := last.nextFree,
             history := s.history.dropLast }

/-- Root change, accepted only in phase idle. -/
def changeRoot (s : VisState) (addr : Nat) : VisState :=
  if s.phase = Phase.idle then { s with root := some addr } else s

/-- Insertion of a fresh garbage object of size 3 right after the last
occupied cell, accepted only in phase idle and only when the free tail
of the memory is at least 3 cells.  The randomly generated identifier
of the source is taken as a parameter.  Nat subtraction truncates at
zero exactly where the JavaScript difference is negative, and both
sides of the guard reject there. -/
def addGarbage (s : VisState) (gid : String) : VisState :=
  if s.phase = Phase.idle then
    let lastEnd := s.objects.foldl (fun m o => max m (o.addr + o.size)) 0
    let free := s.memorySize - lastEnd
    if free < 3 then s
    else
      { s with objects := sortByAddr (s.objects ++
          [{ id := gid, addr := lastEnd + 1, size := 3, fields := [none, none] }]) }
  else s

/-- A demo scenario descriptor. -/
structure Scenario where
  name : String
  memorySize : Nat
  root : Option Nat
  objects : List Obj
deriving DecidableEq, Repr

/-- The fixed default scenario: A at 2 points to B and C, B at 8 points
to C, C at 14 has no pointers, D at 22 is garbage; root is 2. -/
def makeDefaultScenario : Scenario :=
  { name := "A to B to C with garbage D"
    memorySize := 36
    root := some 2
    objects :=
      [ { id := "A", addr := 2, size := 4, fields := [some 8, some 14, none] },
        { id := "B", addr := 8, size := 3, fields := [some 14, none] },
        { id := "C", addr := 14, size := 3, fields := [none, none] },
        { id := "D", addr := 22, size := 5, fields := [none, none, none, none] } ] }

/-- Initial component state for a scenario: phase idle, empty mapping
and history, nextFree the maximum of addr + size over the objects. -/
def initState (sc : Scenario) : VisState :=
  { memorySize := sc.memorySize
    objects := sc.objects
    root := sc.root
    phase := Phase.idle
    mapping := []
    nextFree := sc.objects.foldl (fun m o => max m (o.addr + o.size)) 0
    history := [] }

/-- Modelled from the spec: reachability via zero or more field-pointer
hops.  An address is reachable when the root resolves to an object
(base case: the root object itself) or when it is the resolvable target
of a field of an already-reachable object; a dangling field, whose
target resolves to no object, extends no path. -/
inductive Reach (L : Nat → Option Obj) : Option Nat → Nat → Prop where
  | root {a : Nat} {o : Obj} : L a = some o → Reach L (some a) a
  | step {r : Option Nat} {a b : Nat} {o o2 : Obj} :
      Reach L r a → L a = some o → some b ∈ o.fields → L b = some o2 → Reach L r b

/-- Total size of the marked objects of a list. -/
def markedSizeSum (l : List Obj) : Nat :=
  ((l.filter (fun o => o.marked)).map Obj.size).sum

/-- Total size of the marked objects sitting at addresses strictly
below a given address. -/
def markedSizeBelow (l : List Obj) (a : Nat) : Nat :=
  ((l.filter (fun o => o.marked && decide (o.addr < a))).map Obj.size).sum

/-- Mapping entries produced by the planning scan from a given cursor:
one entry per marked object, keyed by its address, valued with the
cursor, which each marked object advances by its size. -/
def planEntries : List Obj → Nat → List (Nat × Nat)
  | [], _ => []
  | o :: t, c =>
    if o.marked then (o.addr, c) :: planEntries t (c + o.size) else planEntries t c

/-- Demo state sitting in the terminal phase, where all three
phase-guarded operations are out of phase. -/
def crunchedDemo : VisState :=
  { memorySize := 36
    objects := [{ id := "A", addr := 0, size := 4, fields := [none, none, none] }]
    root := some 0
    phase := Phase.crunch
    mapping := [(2, 0)]
    nextFree := 4
    history := [] }

/-- Idle state with exactly three free cells after the last object:
the boundary case of the insertion guard. -/
def tightState : VisState :=
  { memorySize := 6
    objects := [{ id := "A", addr := 0, size := 3, fields := [none, none] }]
    root := some 0
    phase := Phase.idle
    mapping := []
    nextFree := 3
    history := [] }

/-- The default-scenario objects after the mark phase, used as a
concrete marked heap. -/
def markedDemo : List Obj :=
  markReachable makeDefaultScenario.objects (some 2)

/-- Restoring after a push: any state whose history is the original
history extended with the snapshot of s, and whose memorySize agrees
with s, is sent back to s by goPrev. -/
theorem goPrev_of_push (s t : VisState) (hh : t.history = s.history ++ [takeSnap s])
    (hm : t.memorySize = s.memorySize) : goPrev t = s := by
  simp [goPrev, hh, List.getLast?_concat, List.dropLast_concat, takeSnap, hm]

/-- C8: invoking an operation outside its required phase leaves the
entire state unchanged: doPrepare when the phase is not mark, doCrunch
when the phase is not prepare, and changeRoot when the phase is not
idle all reject the request and mutate nothing. -/
theorem invalidPhase_state_unchanged (s : VisState) (a : Nat) :
    (s.phase ≠ Phase.mark → doPrepare s = s) ∧
    (s.phase ≠ Phase.prepare → doCrunch s = s) ∧
    (s.phase ≠ Phase.idle → changeRoot s a = s) := by
  refine ⟨fun h => ?_, fun h => ?_, fun h => ?_⟩ <;>
    simp [doPrepare, doCrunch, changeRoot, h]

/-- Witness for C8: in the crunched demo state all three out-of-phase
operations return the state unchanged. -/
theorem invalidPhase_state_unchanged_witness :
    doPrepare crunchedDemo = crunchedDemo ∧
    doCrunch crunchedDemo = crunchedDemo ∧
    changeRoot crunchedDemo 5 = crunchedDemo :=
  ⟨(invalidPhase_state_unchanged crunchedDemo 5).1 (by decide),
   (invalidPhase_state_unchanged crunchedDemo 5).2.1 (by decide),
   (invalidPhase_state_unchanged crunchedDemo 5).2.2 (by decide)⟩

/-- C9: goPrev pops the most recent snapshot and restores objects,
root, phase, mapping and nextFree verbatim from it; with an empty
history it is a no-op that changes no state. -/
theorem goPrev_pops_and_restores (s : VisState) :
    (s.history = [] → goPrev s = s) ∧
    (∀ (h : List Snap) (sn : Snap), s.history = h ++ [sn] →
      goPrev s =
        { s with objects := sn.objects, root := sn.root, phase := sn.phase,
                 mapping := sn.mapping, nextFree := sn.nextFree, history := h }) := by
  constructor
  · intro h
    simp [goPrev, h]
  · intro h sn hh
    simp [goPrev, hh, List.getLast?_concat, List.dropLast_concat]

/-- Witness for C9: goPrev is the identity on the empty-history initial
state, and after a push it restores the pushed snapshot and pops it. -/
theorem goPrev_pops_and_restores_witness :
    goPrev (initState makeDefaultScenario) = initState makeDefaultScenario ∧
    goPrev (pushHistory (initState makeDefaultScenario)) =
      { pushHistory (initState makeDefaultScenario) with
          objects := (takeSnap (initState makeDefaultScenario)).objects
          root := (takeSnap (initState makeDefaultScenario)).root
          phase := (takeSnap (initState makeDefaultScenario)).phase
          mapping := (takeSnap (initState makeDefaultScenario)).mapping
          nextFree := (takeSnap (initState makeDefaultScenario)).nextFree
          history := [] } :=
  ⟨(goPrev_pops_and_restores (initState makeDefaultScenario)).1 rfl,
   (goPrev_pops_and_restores (pushHistory (initState makeDefaultScenario))).2
     [] (takeSnap (initState makeDefaultScenario)) rfl⟩

/-- C5: from any idle state, mark then prepare then crunch followed by
three undos restores the original state: objects, root, phase, mapping,
nextFree — and the history stack — are all exactly as before mark. -/
theorem mark_prepare_crunch_undo3 (s : VisState) (h : s.phase = Phase.idle) :
    goPrev (goPrev (goPrev (doCrunch (doPrepare (doMark s))))) = s := by
  have h1 : doMark s =
      { pushHistory s with objects := markReachable s.objects s.root,
                           phase := Phase.mark } := by
    simp [doMark, h, pushHistory]
  have g1 : goPrev (doMark s) = s := by
    apply goPrev_of_push
    · rw [h1]; rfl
    · rw [h1]; rfl
  have h2 : doPrepare (doMark s) =
      { pushHistory (doMark s) with
          objects := (prepareCompaction (doMark s).objects (doMark s).memorySize
            (doMark s).root).objects
          mapping := (prepareCompaction (doMark s).objects (doMark s).memorySize
            (doMark s).root).oldToNew
          root := (prepareCompaction (doMark s).objects (doMark s).memorySize
            (doMark s).root).newRoot
          nextFree := (prepareCompaction (doMark s).objects (doMark s).memorySize
            (doMark s).root).nextFree
          phase := Phase.prepare } := by
    have hp : (doMark s).phase = Phase.mark := by rw [h1]
    simp [doPrepare, hp, pushHistory]
  have g2 : goPrev (doPrepare (doMark s)) = doMark s := by
    apply goPrev_of_push
    · rw [h2]; rfl
    · rw [h2]; rfl
  have h3 : doCrunch (doPrepare (doMark s)) =
      { pushHistory (doPrepare (doMark s)) with
          objects := crunch (doPrepare (doMark s)).objects (doPrepare (doMark s)).mapping
          phase := Phase.crunch } := by
    have hp : (doPrepare (doMark s)).phase = Phase.prepare := by rw [h2]
    simp [doCrunch, hp, pushHistory]
  have g3 : goPrev (doCrunch (doPrepare (doMark s))) = doPrepare (doMark s) := by
    apply goPrev_of_push
    · rw [h3]; rfl
    · rw [h3]; rfl
  rw [g3, g2, g1]

/-- Witness for C5: the full forward cycle followed by three undos
reproduces the initial default-scenario state exactly. -/
theorem mark_prepare_crunch_undo3_witness :
    goPrev (goPrev (goPrev (doCrunch (doPrepare (doMark
      (initState makeDefaultScenario)))))) = initState makeDefaultScenario :=
  mark_prepare_crunch_undo3 (initState makeDefaultScenario) rfl

/-- C7 (code bug at the boundary): with exactly 3 free cells the guard
free < 3 admits the insertion, but the object is placed at
lastEnd + 1 = 4 with size 3, so it ends at cell 7, beyond memorySize 6:
the heap is mutated and the inserted object exceeds the capacity
instead of the insertion being rejected. -/
theorem addGarbage_exact_fit_exceeds_memory :
    (addGarbage tightState "G42").objects.map (fun o => (o.id, o.addr, o.size)) =
      [("A", 0, 3), ("G42", 4, 3)] ∧
    addGarbage tightState "G42" ≠ tightState ∧
    ∃ o ∈ (addGarbage tightState "G42").objects,
      tightState.memorySize < o.addr + o.size := by decide

/-- C6: the full run on the fixed default scenario.  After mark the
objects A, B, C are marked and D is not; after prepare the mapping is
2 to 0, 8 to 4, 14 to 7, the fields of A are 4, 7, null, the root is 0
and nextFree is 10; after crunch exactly the three objects A, B, C
remain, at addresses 0, 4 and 7, and D is absent. -/
theorem default_scenario_run :
    ((doMark (initState makeDefaultScenario)).objects.map (fun o => (o.id, o.marked)) =
        [("A", true), ("B", true), ("C", true), ("D", false)]) ∧
    (doPrepare (doMark (initState makeDefaultScenario))).mapping =
        [(2, 0), (8, 4), (14, 7)] ∧
    ((doPrepare (doMark (initState makeDefaultScenario))).objects.map
        (fun o => (o.id, o.fields)) =
        [("A", [some 4, some 7, none]), ("B", [some 7, none]), ("C", [none, none]),
         ("D", [none, none, none, none])]) ∧
    (doPrepare (doMark (initState makeDefaultScenario))).root = some 0 ∧
    (doPrepare (doMark (initState makeDefaultScenario))).nextFree = 10 ∧
    ((doCrunch (doPrepare (doMark (initState makeDefaultScenario)))).objects.map
        (fun o => (o.id, o.addr)) = [("A", 0), ("B", 4), ("C", 7)]) := by decide

/-- The object list produced by prepareCompaction is the input list
mapped through the planned-address update followed by the field
retargeting. -/
theorem prepareCompaction_objects_eq (objs : List Obj) (ms : Nat) (r : Option Nat) :
    (prepareCompaction objs ms r).objects =
      objs.map (fun o =>
        let o1 :=
          if o.marked then
            { o with newAddr := mapGet (prepareCompaction objs ms r).oldToNew o.addr }
          else o
        { o1 with fields := o1.fields.map (retargetCell (prepareCompaction objs ms r).oldToNew) }) := by
  simp only [prepareCompaction, List.map_map]
  rfl

/-- C10: prepareCompaction neither adds nor removes objects and keeps
every object's id, address, size and mark bit; position by position only
the planned address and the field values can differ, and the field count
is preserved. -/
theorem prepare_frame (objs : List Obj) (ms : Nat) (r : Option Nat) :
    List.Forall₂ (fun o o2 => o2.id = o.id ∧ o2.addr = o.addr ∧ o2.size = o.size ∧
        o2.marked = o.marked ∧ o2.fields.length = o.fields.length)
      objs (prepareCompaction objs ms r).objects := by
  rw [prepareCompaction_objects_eq]
  rw [List.forall₂_map_right_iff]
  rw [List.forall₂_same]
  intro o _
  by_cases hm : o.marked <;> simp [hm]

/-- C4: after prepareCompaction, position by position, every field cell
holding a key of the mapping now holds its mapped address, every cell
not in the mapping (null, dangling, or pointing at garbage) is left
unchanged, and a root that resolves through the mapping becomes its
mapped address while any other root becomes none. -/
theorem prepare_retargets_pointers (objs : List Obj) (ms : Nat) (r : Option Nat) :
    List.Forall₂ (fun o o2 =>
        List.Forall₂ (fun cell cell2 =>
            (cell = none → cell2 = none) ∧
            (∀ c, cell = some c →
              mapGet (prepareCompaction objs ms r).oldToNew c = none → cell2 = some c) ∧
            (∀ c n, cell = some c →
              mapGet (prepareCompaction objs ms r).oldToNew c = some n → cell2 = some n))
          o.fields o2.fields)
      objs (prepareCompaction objs ms r).objects ∧
    (r = none → (prepareCompaction objs ms r).newRoot = none) ∧
    (∀ rt, r = some rt →
      (prepareCompaction objs ms r).newRoot = mapGet (prepareCompaction objs ms r).oldToNew rt) := by
  refine ⟨?_, ?_, ?_⟩
  · rw [prepareCompaction_objects_eq]
    rw [List.forall₂_map_right_iff]
    rw [List.forall₂_same]
    intro o _
    have hfields : ∀ (o1 : Obj),
        o1.fields = o.fields →
        List.Forall₂ (fun cell cell2 =>
            (cell = none → cell2 = none) ∧
            (∀ c, cell = some c →
              mapGet (prepareCompaction objs ms r).oldToNew c = none → cell2 = some c) ∧
            (∀ c n, cell = some c →
              mapGet (prepareCompaction objs ms r).oldToNew c = some n → cell2 = some n))
          o.fields (o1.fields.map (retargetCell (prepareCompaction objs ms r).oldToNew)) := by
      intro o1 h1
      rw [h1, List.forall₂_map_right_iff, List.forall₂_same]
      intro cell _
      refine ⟨fun hc => ?_, fun c hc hget => ?_, fun c n hc hget => ?_⟩
      · simp [hc, retargetCell]
      · simp [hc, retargetCell, hget]
      · simp [hc, retargetCell, hget]
    by_cases hm : o.marked <;> simp only [hm, if_true, if_false] <;> exact hfields _ rfl
  · intro hr
    simp [prepareCompaction, hr]
  · intro rt hr
    simp [prepareCompaction, hr]

/-- Witness for C4: on the marked default scenario the root 2 is
retargeted through the mapping. -/
theorem prepare_retargets_pointers_witness :
    (prepareCompaction (markReachable makeDefaultScenario.objects (some 2)) 36
        (some 2)).newRoot =
      mapGet (prepareCompaction (markReachable makeDefaultScenario.objects (some 2)) 36
        (some 2)).oldToNew 2 :=
  (prepare_retargets_pointers (markReachable makeDefaultScenario.objects (some 2)) 36
      (some 2)).2.2 2 rfl

/-- A fold over dfs steps can only grow the visited set. -/
theorem foldl_subset_of_subset {f : Finset Nat → Option Nat → Finset Nat}
    (hf : ∀ v p, v ⊆ f v p) :
    ∀ (ps : List (Option Nat)) (v : Finset Nat), v ⊆ ps.foldl f v := by
  intro ps
  induction ps with
  | nil => intro v; exact Finset.Subset.refl v
  | cons p ps ih => intro v; exact (hf v p).trans (ih (f v p))

/-- dfsVisit only grows the visited set. -/
theorem dfsVisit_mono (L : Nat → Option Obj) :
    ∀ (fuel : Nat) (a : Option Nat) (v : Finset Nat), v ⊆ dfsVisit L fuel a v := by
  intro fuel
  induction fuel with
  | zero => intro a v; simp [dfsVisit]
  | succ n ih =>
    intro a v
    match a with
    | none => simp [dfsVisit]
    | some a =>
      simp only [dfsVisit]
      cases hL : L a with
      | none => exact Finset.Subset.refl v
      | some o =>
        simp only
        by_cases hv : a ∈ v
        · simp [hv]
        · simp only [hv, if_false]
          exact (Finset.subset_insert a v).trans
            (foldl_subset_of_subset (fun v2 p => ih p v2) o.fields (insert a v))

/-- Transitivity of reachability along a change of entry point
(auxiliary form with an equation on the entry). -/
theorem reach_trans_aux {L : Nat → Option Obj} {r2 : Option Nat} {x : Nat}
    (h2 : Reach L r2 x) :
    ∀ {r : Option Nat} {a : Nat}, r2 = some a → Reach L r a → Reach L r x := by
  induction h2 with
  | root hL => intro r a heq h1; cases heq; exact h1
  | step hparent hLa hf hLb ih => intro r a heq h1; exact Reach.step (ih heq h1) hLa hf hLb

/-- Reachability composes: anything reachable from an address that is
itself reachable is reachable. -/
theorem reach_trans {L : Nat → Option Obj} {r : Option Nat} {a x : Nat}
    (h1 : Reach L r a) (h2 : Reach L (some a) x) : Reach L r x :=
  reach_trans_aux h2 rfl h1

/-- Nothing is reachable from an empty root. -/
theorem reach_none_aux {L : Nat → Option Obj} {r : Option Nat} {x : Nat}
    (h : Reach L r x) : r = none → False := by
  induction h with
  | root hL => intro heq; cases heq
  | step hparent hLa hf hLb ih => exact ih

/-- A nonempty entry point of a reachability path resolves to an
object. -/
theorem reach_src {L : Nat → Option Obj} {r2 : Option Nat} {x : Nat}
    (h : Reach L r2 x) : ∀ b, r2 = some b → ∃ o, L b = some o := by
  induction h with
  | root hL => intro b heq; cases heq; exact ⟨_, hL⟩
  | step hparent hLa hf hLb ih => exact ih

/-- Soundness of the dfs: every visited address is either previously
visited or reachable from the starting address. -/
theorem dfsVisit_sound (L : Nat → Option Obj) :
    ∀ (fuel : Nat) (a : Option Nat) (v : Finset Nat) (x : Nat),
      x ∈ dfsVisit L fuel a v → x ∈ v ∨ ∃ b, a = some b ∧ Reach L (some b) x := by
  intro fuel
  induction fuel with
  | zero => intro a v x hx; exact Or.inl (by simpa [dfsVisit] using hx)
  | succ n ih =>
    have hfold : ∀ (ps : List (Option Nat)) (v : Finset Nat) (x : Nat),
        x ∈ ps.foldl (fun v2 p => dfsVisit L n p v2) v →
        x ∈ v ∨ ∃ b, some b ∈ ps ∧ Reach L (some b) x := by
      intro ps
      induction ps with
      | nil => intro v x hx; exact Or.inl hx
      | cons p ps ihp =>
        intro v x hx
        rcases ihp (dfsVisit L n p v) x hx with h | ⟨b, hb, hr⟩
        · rcases ih p v x h with h2 | ⟨b, hb, hr⟩
          · exact Or.inl h2
          · exact Or.inr ⟨b, by rw [hb]; exact List.mem_cons_self _ _, hr⟩
        · exact Or.inr ⟨b, List.mem_cons_of_mem _ hb, hr⟩
    intro a v x hx
    match a with
    | none => exact Or.inl (by simpa [dfsVisit] using hx)
    | some a =>
      simp only [dfsVisit] at hx
      cases hL : L a with
      | none => rw [hL] at hx; exact Or.inl hx
      | some o =>
        rw [hL] at hx
        simp only at hx
        by_cases hv : a ∈ v
        · rw [if_pos hv] at hx; exact Or.inl hx
        · rw [if_neg hv] at hx
          rcases hfold o.fields (insert a v) x hx with h | ⟨b, hb, hr⟩
          · rcases Finset.mem_insert.mp h with rfl | h2
            · exact Or.inr ⟨x, rfl, Reach.root hL⟩
            · exact Or.inl h2
          · rcases reach_src hr b rfl with ⟨o2, hLb⟩
            exact Or.inr ⟨a, rfl,
              reach_trans (Reach.step (Reach.root hL) hL hb hLb) hr⟩

/-- Completeness machinery for the dfs.  With fuel exceeding the number
of unvisited resolvable addresses, the returned visited set is closed
under resolvable field edges out of every newly visited address, and
contains the starting address whenever that address resolves.  The
fuel bound is maintained because each recursive level has inserted one
more element of the domain into the visited set. -/
theorem dfsVisit_closed (L : Nat → Option Obj) (domain : Finset Nat)
    (hdom : ∀ a o, L a = some o → a ∈ domain) :
    ∀ (fuel : Nat) (a : Option Nat) (v : Finset Nat),
      (domain \ v).card + 1 ≤ fuel →
      ((∀ x ∈ dfsVisit L fuel a v, x ∉ v →
        ∀ o b o2, L x = some o → some b ∈ o.fields → L b = some o2 →
          b ∈ dfsVisit L fuel a v) ∧
      (∀ b, a = some b → ∀ o2, L b = some o2 → b ∈ dfsVisit L fuel a v)) := by
  intro fuel
  induction fuel with
  | zero => intro a v hc; exact absurd hc (Nat.not_succ_le_zero _)
  | succ n ih =>
    have hfold : ∀ (ps : List (Option Nat)) (v : Finset Nat),
        (domain \ v).card + 1 ≤ n →
        ((∀ x ∈ ps.foldl (fun v2 p => dfsVisit L n p v2) v, x ∉ v →
          ∀ o b o2, L x = some o → some b ∈ o.fields → L b = some o2 →
            b ∈ ps.foldl (fun v2 p => dfsVisit L n p v2) v) ∧
        (∀ b, some b ∈ ps → ∀ o2, L b = some o2 →
          b ∈ ps.foldl (fun v2 p => dfsVisit L n p v2) v)) := by
      intro ps
      induction ps with
      | nil =>
        intro v hc
        constructor
        · intro x hx hxv
          exact absurd hx hxv
        · intro b hb
          cases hb
      | cons p ps ihp =>
        intro v hc
        have hsub : v ⊆ dfsVisit L n p v := dfsVisit_mono L n p v
        have hc2 : (domain \ dfsVisit L n p v).card + 1 ≤ n :=
          le_trans (Nat.add_le_add_right (Finset.card_le_card
            (Finset.sdiff_subset_sdiff (Finset.Subset.refl _) hsub)) 1) hc
        have hVp := ih p v hc
        have hF := ihp (dfsVisit L n p v) hc2
        simp only [List.foldl_cons]
        constructor
        · intro x hx hxv o b o2 hLx hbf hLb
          by_cases hx1 : x ∈ dfsVisit L n p v
          · have hb1 : b ∈ dfsVisit L n p v := hVp.1 x hx1 hxv o b o2 hLx hbf hLb
            exact foldl_subset_of_subset (fun v2 q => dfsVisit_mono L n q v2) ps _ hb1
          · exact hF.1 x hx hx1 o b o2 hLx hbf hLb
        · intro b hb o2 hLb
          rcases List.mem_cons.mp hb with heq | hmem
          · exact foldl_subset_of_subset (fun v2 q => dfsVisit_mono L n q v2) ps _
              (hVp.2 b heq.symm o2 hLb)
          · exact hF.2 b hmem o2 hLb
    intro a v hc
    match a with
    | none =>
      constructor
      · intro x hx hxv
        simp only [dfsVisit] at hx
        exact absurd hx hxv
      · intro b hb
        cases hb
    | some a =>
      cases hL : L a with
      | none =>
        have hres : dfsVisit L (n + 1) (some a) v = v := by
          simp [dfsVisit, hL]
        rw [hres]
        constructor
        · intro x hx hxv
          exact absurd hx hxv
        · intro b hb o2 hLb
          injection hb with hba
          rw [← hba, hL] at hLb
          cases hLb
      | some o =>
        by_cases hv : a ∈ v
        · have hres : dfsVisit L (n + 1) (some a) v = v := by
            simp [dfsVisit, hL, hv]
          rw [hres]
          constructor
          · intro x hx hxv
            exact absurd hx hxv
          · intro b hb o2 hLb
            injection hb with hba
            rw [← hba]
            exact hv
        · have ha_sdiff : a ∈ domain \ v := Finset.mem_sdiff.mpr ⟨hdom a o hL, hv⟩
          have hc2 : (domain \ insert a v).card + 1 ≤ n := by
            rw [Finset.sdiff_insert, Finset.card_erase_of_mem ha_sdiff]
            have hpos : 0 < (domain \ v).card := Finset.card_pos.mpr ⟨a, ha_sdiff⟩
            omega
          have hres : dfsVisit L (n + 1) (some a) v =
              o.fields.foldl (fun v2 p => dfsVisit L n p v2) (insert a v) := by
            simp [dfsVisit, hL, hv]
          rw [hres]
          have hF := hfold o.fields (insert a v) hc2
          constructor
          · intro x hx hxv o1 b o2 hLx hbf hLb
            by_cases hxa : x = a
            · subst hxa
              rw [hL] at hLx
              injection hLx with ho1
              subst ho1
              exact hF.2 b hbf o2 hLb
            · have hxiv : x ∉ insert a v := by
                simp [Finset.mem_insert, hxa, hxv]
              exact hF.1 x hx hxiv o1 b o2 hLx hbf hLb
          · intro b hb o2 hLb
            injection hb with hba
            rw [← hba]
            exact foldl_subset_of_subset (fun v2 q => dfsVisit_mono L n q v2) o.fields
              (insert a v) (Finset.mem_insert_self a v)

/-- Every address the object map resolves is an address of some listed
object. -/
theorem lookupAddr_mem_domain (objs : List Obj) (a : Nat) (o : Obj)
    (h : lookupAddr objs a = some o) : a ∈ (objs.map Obj.addr).toFinset := by
  have hmem := List.mem_of_find?_eq_some h
  have haddr : o.addr = a := by simpa using List.find?_some h
  rw [List.mem_toFinset, ← haddr]
  exact List.mem_map_of_mem Obj.addr (List.mem_reverse.mp hmem)

/-- The visited set computed by the dfs of markReachable is exactly
the set of addresses reachable from the root. -/
theorem mem_dfsVisit_iff_reach (objs : List Obj) (rootAddr : Option Nat) (x : Nat) :
    x ∈ dfsVisit (lookupAddr objs) (objs.length + 1) rootAddr ∅ ↔
      Reach (lookupAddr objs) rootAddr x := by
  constructor
  · intro hx
    rcases dfsVisit_sound (lookupAddr objs) (objs.length + 1) rootAddr ∅ x hx with
      h | ⟨b, hb, hr⟩
    · simp at h
    · rw [hb]
      exact hr
  · intro hr
    have hdom : ∀ a o, lookupAddr objs a = some o → a ∈ (objs.map Obj.addr).toFinset :=
      fun a o h => lookupAddr_mem_domain objs a o h
    have hcard : (((objs.map Obj.addr).toFinset) \ ∅).card + 1 ≤ objs.length + 1 := by
      rw [Finset.sdiff_empty]
      have h1 := List.toFinset_card_le (objs.map Obj.addr)
      rw [List.length_map] at h1
      omega
    induction hr with
    | root hL =>
      exact (dfsVisit_closed _ _ hdom (objs.length + 1) _ ∅ hcard).2 _ rfl _ hL
    | step hparent hLa hf hLb ihr =>
      exact (dfsVisit_closed _ _ hdom (objs.length + 1) _ ∅ hcard).1 _ ihr
        (Finset.not_mem_empty _) _ _ _ hLa hf hLb

/-- In a list with pairwise distinct addresses, searching for the
address of a member finds that member. -/
theorem find?_addr_of_nodup : ∀ (l : List Obj), (l.map Obj.addr).Nodup →
    ∀ o ∈ l, l.find? (fun e => e.addr == o.addr) = some o := by
  intro l
  induction l with
  | nil => intro _ o ho; cases ho
  | cons h t ih =>
    intro hnd o ho
    rw [List.map_cons, List.nodup_cons] at hnd
    rcases List.mem_cons.mp ho with rfl | hot
    · exact List.find?_cons_of_pos _ (by simp)
    · have hne : (h.addr == o.addr) = false := by
        rw [beq_eq_false_iff_ne]
        intro heq
        exact hnd.1 (heq ▸ List.mem_map_of_mem Obj.addr hot)
      rw [List.find?_cons_of_neg _ (by simp [hne])]
      exact ih hnd.2 o hot

/-- With pairwise distinct addresses the object map resolves each
member at its own address to that member. -/
theorem lookupAddr_self (objs : List Obj) (hnd : (objs.map Obj.addr).Nodup)
    (o : Obj) (ho : o ∈ objs) : lookupAddr objs o.addr = some o := by
  have hnd2 : (objs.reverse.map Obj.addr).Nodup := by
    rw [List.map_reverse]
    exact List.nodup_reverse.mpr hnd
  exact find?_addr_of_nodup objs.reverse hnd2 o (List.mem_reverse.mpr ho)

/-- C1: on a heap with pairwise distinct addresses and all mark bits
clear, markReachable marks an object exactly when its address is
reachable from the root by zero or more field-pointer hops (the root
object itself included); with an empty root no object is marked; a
dangling field value extends no reachability path and the traversal is
total, so it never errors. -/
theorem markReachable_marks_iff_reachable (objs : List Obj) (rootAddr : Option Nat)
    (hnd : (objs.map Obj.addr).Nodup)
    (hun : ∀ o ∈ objs, o.marked = false) :
    (∀ o ∈ markReachable objs rootAddr,
      (o.marked = true ↔ Reach (lookupAddr objs) rootAddr o.addr)) ∧
    (rootAddr = none → ∀ o ∈ markReachable objs rootAddr, o.marked = false) := by
  have hmain : ∀ o ∈ markReachable objs rootAddr,
      (o.marked = true ↔ Reach (lookupAddr objs) rootAddr o.addr) := by
    intro o2 ho2
    simp only [markReachable, List.mem_map] at ho2
    rcases ho2 with ⟨o, ho, heq⟩
    have hwin : lookupAddr objs o.addr = some o := lookupAddr_self objs hnd o ho
    by_cases hvis : o.addr ∈ dfsVisit (lookupAddr objs) (objs.length + 1) rootAddr ∅
    · rw [if_pos ⟨hvis, hwin⟩] at heq
      rw [← heq]
      exact iff_of_true rfl ((mem_dfsVisit_iff_reach objs rootAddr o.addr).mp hvis)
    · rw [if_neg (fun hc => hvis hc.1)] at heq
      rw [← heq]
      rw [hun o ho]
      exact iff_of_false (by simp)
        (fun hr => hvis ((mem_dfsVisit_iff_reach objs rootAddr o.addr).mpr hr))
  refine ⟨hmain, ?_⟩
  intro hnone o2 ho2
  by_contra hm2
  have hm3 : o2.marked = true := by
    revert hm2
    cases o2.marked <;> simp
  exact reach_none_aux ((hmain o2 ho2).mp hm3) hnone

/-- Witness for C1: in the default scenario the address 14 of C is
reachable from the root 2, read off from the mark bit C carries after
markReachable. -/
theorem markReachable_marks_iff_reachable_witness :
    Reach (lookupAddr makeDefaultScenario.objects) (some 2) 14 :=
  ((markReachable_marks_iff_reachable makeDefaultScenario.objects (some 2)
      (by decide) (by decide)).1
    { id := "C", addr := 14, size := 3, fields := [none, none], marked := true,
      newAddr := none }
    (by decide)).mp rfl

/-- Setting a fresh key appends its entry. -/
theorem mapSet_of_not_has (m : List (Nat × Nat)) (k v : Nat) (h : mapHas m k = false) :
    mapSet m k v = m ++ [(k, v)] := by
  rw [mapSet, h]
  simp

/-- Key presence distributes over append. -/
theorem mapHas_append (m1 m2 : List (Nat × Nat)) (k : Nat) :
    mapHas (m1 ++ m2) k = (mapHas m1 k || mapHas m2 k) := by
  simp [mapHas, List.any_append]

/-- Lookup at the key of the head entry. -/
theorem mapGet_cons_self (k v : Nat) (m : List (Nat × Nat)) :
    mapGet ((k, v) :: m) k = some v := by
  rw [mapGet, List.find?_cons_of_pos _ (by simp)]
  rfl

/-- Lookup skips a head entry with a different key. -/
theorem mapGet_cons_ne (k v a : Nat) (m : List (Nat × Nat)) (h : k ≠ a) :
    mapGet ((k, v) :: m) a = mapGet m a := by
  rw [mapGet, List.find?_cons_of_neg _ (by simp [h]), ← mapGet]

/-- The final cursor of the planning scan is the initial cursor plus
the total size of the marked objects. -/
theorem planFold_fst : ∀ (l : List Obj) (c : Nat) (m : List (Nat × Nat)),
    (l.foldl planStep (c, m)).1 = c + markedSizeSum l := by
  intro l
  induction l with
  | nil =>
    intro c m
    simp [markedSizeSum]
  | cons h t ih =>
    intro c m
    rw [List.foldl_cons]
    by_cases hm : h.marked
    · rw [show planStep (c, m) h = (c + h.size, mapSet m h.addr c) from by
        simp [planStep, hm]]
      rw [ih]
      simp [markedSizeSum, List.filter_cons, hm]
      omega
    · rw [show planStep (c, m) h = (c, m) from by simp [planStep, hm]]
      rw [ih]
      simp [markedSizeSum, List.filter_cons, hm]

/-- With pairwise distinct addresses and no marked address already
present, the planning scan appends exactly the planEntries of the
list. -/
theorem planFold_snd : ∀ (l : List Obj) (c : Nat) (m : List (Nat × Nat)),
    (l.map Obj.addr).Nodup →
    (∀ o ∈ l, o.marked = true → mapHas m o.addr = false) →
    (l.foldl planStep (c, m)).2 = m ++ planEntries l c := by
  intro l
  induction l with
  | nil =>
    intro c m _ _
    simp [planEntries]
  | cons h t ih =>
    intro c m hnd hkeys
    rw [List.map_cons, List.nodup_cons] at hnd
    rw [List.foldl_cons]
    by_cases hm : h.marked
    · have hstep : planStep (c, m) h = (c + h.size, m ++ [(h.addr, c)]) := by
        simp [planStep, hm,
          mapSet_of_not_has m h.addr c (hkeys h (List.mem_cons_self h t) hm)]
      rw [hstep]
      have hkeys2 : ∀ o ∈ t, o.marked = true →
          mapHas (m ++ [(h.addr, c)]) o.addr = false := by
        intro o ho hmo
        have hne : h.addr ≠ o.addr :=
          fun heq => hnd.1 (heq ▸ List.mem_map_of_mem Obj.addr ho)
        rw [mapHas_append, hkeys o (List.mem_cons_of_mem h ho) hmo]
        simp [mapHas, hne]
      rw [ih (c + h.size) (m ++ [(h.addr, c)]) hnd.2 hkeys2]
      rw [planEntries]
      simp [hm, List.append_assoc]
    · have hstep : planStep (c, m) h = (c, m) := by simp [planStep, hm]
      rw [hstep,
        ih c m hnd.2 (fun o ho hmo => hkeys o (List.mem_cons_of_mem h ho) hmo)]
      rw [planEntries]
      simp [hm]

/-- In a sorted duplicate-free list, the plan entry of a marked member
is the cursor plus the sizes of the marked objects at lower
addresses. -/
theorem mapGet_planEntries_marked : ∀ (l : List Obj) (c : Nat),
    (l.map Obj.addr).Nodup →
    l.Pairwise (fun o1 o2 => o1.addr ≤ o2.addr) →
    ∀ o ∈ l, o.marked = true →
    mapGet (planEntries l c) o.addr = some (c + markedSizeBelow l o.addr) := by
  intro l
  induction l with
  | nil =>
    intro c _ _ o ho
    cases ho
  | cons h t ih =>
    intro c hnd hsort o ho hm
    rw [List.map_cons, List.nodup_cons] at hnd
    rw [List.pairwise_cons] at hsort
    rcases List.mem_cons.mp ho with rfl | hot
    · rw [planEntries]
      simp only [hm, if_true]
      rw [mapGet_cons_self]
      have hempty : markedSizeBelow (o :: t) o.addr = 0 := by
        rw [markedSizeBelow]
        have hfil :
            List.filter (fun o2 => o2.marked && decide (o2.addr < o.addr)) (o :: t) = [] := by
          rw [List.filter_eq_nil_iff]
          intro a ha
          rcases List.mem_cons.mp ha with rfl | hat
          · simp
          · simp [Nat.not_lt.mpr (hsort.1 a hat)]
        rw [hfil]
        rfl
      rw [hempty, Nat.add_zero]
    · have hne : h.addr ≠ o.addr :=
        fun heq => hnd.1 (heq ▸ List.mem_map_of_mem Obj.addr hot)
      have hlt : h.addr < o.addr := lt_of_le_of_ne (hsort.1 o hot) hne
      by_cases hmh : h.marked
      · rw [planEntries]
        simp only [hmh, if_true]
        rw [mapGet_cons_ne _ _ _ _ hne]
        rw [ih (c + h.size) hnd.2 hsort.2 o hot hm]
        have hstep : markedSizeBelow (h :: t) o.addr =
            h.size + markedSizeBelow t o.addr := by
          rw [markedSizeBelow, markedSizeBelow, List.filter_cons]
          simp [hmh, hlt]
        rw [hstep, Nat.add_assoc]
      · rw [planEntries]
        rw [if_neg (by simp [hmh])]
        rw [ih c hnd.2 hsort.2 o hot hm]
        have hstep : markedSizeBelow (h :: t) o.addr = markedSizeBelow t o.addr := by
          rw [markedSizeBelow, markedSizeBelow, List.filter_cons]
          simp [hmh]
        rw [hstep]

/-- An address that is not the address of any marked object has no
plan entry. -/
theorem mapGet_planEntries_none : ∀ (l : List Obj) (c : Nat) (a : Nat),
    (∀ o ∈ l, o.marked = true → o.addr ≠ a) →
    mapGet (planEntries l c) a = none := by
  intro l
  induction l with
  | nil =>
    intro c a _
    rfl
  | cons h t ih =>
    intro c a hno
    by_cases hm : h.marked
    · rw [planEntries]
      simp only [hm, if_true]
      rw [mapGet_cons_ne _ _ _ _ (hno h (List.mem_cons_self h t) hm)]
      exact ih _ a (fun o ho hmo => hno o (List.mem_cons_of_mem h ho) hmo)
    · rw [planEntries]
      rw [if_neg (by simp [hm])]
      exact ih _ a (fun o ho hmo => hno o (List.mem_cons_of_mem h ho) hmo)

/-- Sorting by address is a permutation. -/
theorem sortByAddr_perm (l : List Obj) : (sortByAddr l).Perm l :=
  List.perm_insertionSort _ l

/-- Sorting by address yields pairwise nondecreasing addresses. -/
theorem sortByAddr_sorted (l : List Obj) :
    (sortByAddr l).Pairwise (fun o1 o2 => o1.addr ≤ o2.addr) := by
  haveI h1 : IsTotal Obj (fun o1 o2 => o1.addr ≤ o2.addr) :=
    ⟨fun a b => Nat.le_total a.addr b.addr⟩
  haveI h2 : IsTrans Obj (fun o1 o2 => o1.addr ≤ o2.addr) :=
    ⟨fun a b c hab hbc => le_trans hab hbc⟩
  exact List.sorted_insertionSort _ l

/-- The marked-size total is invariant under permutation. -/
theorem markedSizeSum_perm {l1 l2 : List Obj} (h : l1.Perm l2) :
    markedSizeSum l1 = markedSizeSum l2 :=
  ((h.filter _).map _).sum_eq

/-- The below-an-address marked-size total is invariant under
permutation. -/
theorem markedSizeBelow_perm {l1 l2 : List Obj} (h : l1.Perm l2) (a : Nat) :
    markedSizeBelow l1 a = markedSizeBelow l2 a :=
  ((h.filter _).map _).sum_eq

/-- The mapping built by prepareCompaction is the planEntries of the
address-sorted object list from cursor 0. -/
theorem prepare_oldToNew_eq (objs : List Obj) (ms : Nat) (r : Option Nat)
    (hnd : (objs.map Obj.addr).Nodup) :
    (prepareCompaction objs ms r).oldToNew = planEntries (sortByAddr objs) 0 := by
  have hndS : ((sortByAddr objs).map Obj.addr).Nodup :=
    (((sortByAddr_perm objs).map Obj.addr).nodup_iff).mpr hnd
  have h := planFold_snd (sortByAddr objs) 0 [] hndS (fun o _ _ => rfl)
  simpa [prepareCompaction] using h

/-- C3: on a heap with pairwise distinct addresses, every marked
object is mapped to the total size of the marked objects at lower
addresses (so the planned layout is contiguous from 0 with no gaps, in
ascending original-address order), unmarked objects receive no mapping
entry, nextFree is the total size of all marked objects, and the
plannedAddress stored on each marked object agrees with the
mapping. -/
theorem prepare_planned_addresses_dense (objs : List Obj) (ms : Nat) (r : Option Nat)
    (hnd : (objs.map Obj.addr).Nodup) :
    (∀ o ∈ objs, o.marked = true →
      mapGet (prepareCompaction objs ms r).oldToNew o.addr =
        some (markedSizeBelow objs o.addr)) ∧
    (∀ o ∈ objs, o.marked = false →
      mapGet (prepareCompaction objs ms r).oldToNew o.addr = none) ∧
    (prepareCompaction objs ms r).nextFree = markedSizeSum objs ∧
    (∀ o ∈ (prepareCompaction objs ms r).objects, o.marked = true →
      o.newAddr = mapGet (prepareCompaction objs ms r).oldToNew o.addr) := by
  have hperm := sortByAddr_perm objs
  have hndS : ((sortByAddr objs).map Obj.addr).Nodup :=
    ((hperm.map Obj.addr).nodup_iff).mpr hnd
  have hOld := prepare_oldToNew_eq objs ms r hnd
  refine ⟨?_, ?_, ?_, ?_⟩
  · intro o ho hm
    rw [hOld]
    rw [mapGet_planEntries_marked (sortByAddr objs) 0 hndS (sortByAddr_sorted objs) o
      (hperm.mem_iff.mpr ho) hm]
    rw [markedSizeBelow_perm hperm, Nat.zero_add]
  · intro o ho hm
    rw [hOld]
    apply mapGet_planEntries_none
    intro o2 ho2 hm2 heq
    have ho2m : o2 ∈ objs := hperm.mem_iff.mp ho2
    have : o2 = o := List.inj_on_of_nodup_map hnd ho2m ho heq
    rw [this, hm] at hm2
    cases hm2
  · have hfst : (prepareCompaction objs ms r).nextFree =
        ((sortByAddr objs).foldl planStep (0, [])).1 := by
      simp [prepareCompaction]
    rw [hfst, planFold_fst, Nat.zero_add]
    exact markedSizeSum_perm hperm
  · intro o2 ho2 hm2
    rw [prepareCompaction_objects_eq] at ho2
    rcases List.mem_map.mp ho2 with ⟨o, ho, heq⟩
    by_cases hm : o.marked
    · rw [← heq]
      simp [hm]
    · rw [← heq] at hm2
      simp [hm] at hm2

/-- Witness for C3: in the marked default scenario the object B at
address 8 receives planned address 4, the size of A. -/
theorem prepare_planned_addresses_dense_witness :
    mapGet (prepareCompaction markedDemo 36 (some 2)).oldToNew 8 = some 4 := by
  have h := (prepare_planned_addresses_dense markedDemo 36 (some 2) (by decide)).1
    { id := "B", addr := 8, size := 3, fields := [some 14, none], marked := true,
      newAddr := none } (by decide) rfl
  exact h.trans (by decide)

/-- Keeping the marked objects and relocating them is a filter followed
by a map. -/
theorem filterMap_marked_eq (m : List (Nat × Nat)) : ∀ (l : List Obj),
    (l.filterMap (fun o =>
      if o.marked then
        some { o with addr := (mapGet m o.addr).getD 0, newAddr := none, marked := false }
      else none)) =
    (l.filter (fun o => o.marked)).map
      (fun o => { o with addr := (mapGet m o.addr).getD 0, newAddr := none,
                         marked := false }) := by
  intro l
  induction l with
  | nil => rfl
  | cons h t ih =>
    rw [List.filterMap_cons, List.filter_cons]
    by_cases hm : h.marked
    · simp [hm, ih]
    · simp [hm, ih]

/-- crunch in filter-map normal form. -/
theorem crunch_eq_map_filter (objects : List Obj) (m : List (Nat × Nat)) :
    crunch objects m =
      ((sortByAddr objects).filter (fun o => o.marked)).map
        (fun o => { o with addr := (mapGet m o.addr).getD 0, newAddr := none,
                           marked := false }) := by
  rw [crunch]
  exact filterMap_marked_eq m (sortByAddr objects)

/-- Each object produced by prepareCompaction descends from an input
object with the same address and mark bit, and a marked one carries
the mapping value as its planned address. -/
theorem prepare_objects_transfer (objs : List Obj) (ms : Nat) (r : Option Nat) :
    ∀ o2 ∈ (prepareCompaction objs ms r).objects, ∃ o ∈ objs,
      o2.addr = o.addr ∧ o2.marked = o.marked ∧
      (o.marked = true →
        o2.newAddr = mapGet (prepareCompaction objs ms r).oldToNew o.addr) := by
  intro o2 ho2
  rw [prepareCompaction_objects_eq] at ho2
  rcases List.mem_map.mp ho2 with ⟨o, ho, heq⟩
  refine ⟨o, ho, ?_, ?_, ?_⟩
  · rw [← heq]
    by_cases hm : o.marked <;> simp [hm]
  · rw [← heq]
    by_cases hm : o.marked <;> simp [hm]
  · intro hm
    rw [← heq]
    simp [hm]

/-- prepareCompaction keeps the address sequence of the object list. -/
theorem prepare_objects_addr_map (objs : List Obj) (ms : Nat) (r : Option Nat) :
    (prepareCompaction objs ms r).objects.map Obj.addr = objs.map Obj.addr := by
  rw [prepareCompaction_objects_eq, List.map_map]
  apply List.map_congr_left
  intro o _
  by_cases hm : o.marked <;> simp [hm]

/-- One cons step of the below-an-address marked-size total. -/
theorem markedSizeBelow_cons (h : Obj) (t : List Obj) (a : Nat) :
    markedSizeBelow (h :: t) a =
      (if h.marked && decide (h.addr < a) then h.size else 0) + markedSizeBelow t a := by
  rw [markedSizeBelow, List.filter_cons]
  by_cases hc : (h.marked && decide (h.addr < a)) = true
  · simp [hc, markedSizeBelow]
  · simp [hc, markedSizeBelow]

/-- The below-an-address marked-size total is monotone in the
address. -/
theorem markedSizeBelow_mono (l : List Obj) {a b : Nat} (hab : a ≤ b) :
    markedSizeBelow l a ≤ markedSizeBelow l b := by
  induction l with
  | nil => simp [markedSizeBelow]
  | cons h t ih =>
    rw [markedSizeBelow_cons, markedSizeBelow_cons]
    apply Nat.add_le_add ?_ ih
    by_cases hc : (h.marked && decide (h.addr < a)) = true
    · have hc2 : (h.marked && decide (h.addr < b)) = true := by
        rcases Bool.and_eq_true_iff.mp hc with ⟨h1, h2⟩
        simp [h1, lt_of_lt_of_le (of_decide_eq_true h2) hab]
      rw [if_pos hc, if_pos hc2]
    · rw [if_neg hc]
      exact Nat.zero_le _

/-- C2: crunching a prepared heap (the output of prepareCompaction on
a heap with pairwise distinct addresses) keeps exactly the marked
objects — same id, size and fields, address equal to the planned
address, mark bit cleared, planned address erased — in ascending
new-address order; unmarked objects are absent, so the survivor count
is the marked count; and doCrunch carries root and nextFree through
unchanged. -/
theorem crunch_keeps_exactly_marked (objs : List Obj) (ms : Nat) (r : Option Nat)
    (hnd : (objs.map Obj.addr).Nodup) :
    List.Forall₂ (fun o o2 => o2.id = o.id ∧ o2.size = o.size ∧ o2.fields = o.fields ∧
        o2.marked = false ∧ o2.newAddr = none ∧ o.newAddr = some o2.addr)
      ((sortByAddr (prepareCompaction objs ms r).objects).filter (fun o => o.marked))
      (crunch (prepareCompaction objs ms r).objects
        (prepareCompaction objs ms r).oldToNew) ∧
    (crunch (prepareCompaction objs ms r).objects
        (prepareCompaction objs ms r).oldToNew).length =
      ((prepareCompaction objs ms r).objects.filter (fun o => o.marked)).length ∧
    (crunch (prepareCompaction objs ms r).objects
        (prepareCompaction objs ms r).oldToNew).Pairwise
      (fun o1 o2 => o1.addr ≤ o2.addr) ∧
    (∀ s : VisState, (doCrunch s).root = s.root ∧ (doCrunch s).nextFree = s.nextFree) := by
  have hkey : ∀ o ∈ (prepareCompaction objs ms r).objects, o.marked = true →
      mapGet (prepareCompaction objs ms r).oldToNew o.addr =
        some (markedSizeBelow objs o.addr) ∧
      o.newAddr = some (markedSizeBelow objs o.addr) := by
    intro o ho hm
    obtain ⟨o0, ho0, haddr, hmarked, hplan⟩ := prepare_objects_transfer objs ms r o ho
    have hm0 : o0.marked = true := by rw [← hmarked]; exact hm
    have hget := (prepare_planned_addresses_dense objs ms r hnd).1 o0 ho0 hm0
    rw [haddr]
    exact ⟨hget, (hplan hm0).trans hget⟩
  have hmemP : ∀ o ∈ (sortByAddr (prepareCompaction objs ms r).objects).filter
      (fun o => o.marked),
      o ∈ (prepareCompaction objs ms r).objects ∧ o.marked = true := by
    intro o ho
    have h1 := List.mem_filter.mp ho
    exact ⟨(sortByAddr_perm _).mem_iff.mp h1.1, h1.2⟩
  refine ⟨?_, ?_, ?_, ?_⟩
  · rw [crunch_eq_map_filter, List.forall₂_map_right_iff, List.forall₂_same]
    intro o ho
    obtain ⟨hoP, hom⟩ := hmemP o ho
    obtain ⟨hget, hplan⟩ := hkey o hoP hom
    refine ⟨rfl, rfl, rfl, rfl, rfl, ?_⟩
    simp [hget, hplan]
  · rw [crunch_eq_map_filter, List.length_map]
    exact ((sortByAddr_perm _).filter _).length_eq
  · rw [crunch_eq_map_filter, List.pairwise_map]
    have hndP2 : ((prepareCompaction objs ms r).objects.map Obj.addr).Nodup := by
      rw [prepare_objects_addr_map]
      exact hnd
    have hndS : ((sortByAddr (prepareCompaction objs ms r).objects).map Obj.addr).Nodup :=
      (((sortByAddr_perm _).map Obj.addr).nodup_iff).mpr hndP2
    have hle := sortByAddr_sorted ((prepareCompaction objs ms r).objects)
    have hnepw : ((sortByAddr (prepareCompaction objs ms r).objects)).Pairwise
        (fun o1 o2 => o1.addr ≠ o2.addr) := List.pairwise_map.mp hndS
    have hlt := (hle.and hnepw).imp (fun hab => lt_of_le_of_ne hab.1 hab.2)
    have hltf := hlt.filter (fun o => o.marked)
    apply List.Pairwise.imp_of_mem ?_ hltf
    intro o1 o2 h1 h2 hlt12
    obtain ⟨h1P, h1m⟩ := hmemP o1 h1
    obtain ⟨h2P, h2m⟩ := hmemP o2 h2
    obtain ⟨hg1, _⟩ := hkey o1 h1P h1m
    obtain ⟨hg2, _⟩ := hkey o2 h2P h2m
    simp only [hg1, hg2, Option.getD_some]
    exact markedSizeBelow_mono objs (le_of_lt hlt12)
  · intro s
    by_cases hp : s.phase = Phase.prepare <;> simp [doCrunch, hp, pushHistory]

/-- Witness for C2: in the marked default scenario the crunched object
count equals the marked-object count. -/
theorem crunch_keeps_exactly_marked_witness :
    (crunch (prepareCompaction markedDemo 36 (some 2)).objects
        (prepareCompaction markedDemo 36 (some 2)).oldToNew).length =
      ((prepareCompaction markedDemo 36 (some 2)).objects.filter
        (fun o => o.marked)).length :=
  (crunch_keeps_exactly_marked markedDemo 36 (some 2) (by decide)).2.1

end GCV
